import Mathlib

/-!
Verification of the file-transfer segmentation and delivery workflow of
`bot.py` (a Telegram media-relay bot).  The development shallowly embeds
the two core pieces of the program:

* `split_file` — the segmenter: reads a file in fixed-size windows and
  writes each window to `<path>.partNNN` (1-based, zero-padded decimal
  suffix of minimum width 3, mirroring Python's `f"{path}.part{idx:03d}"`);
* `handle_download` — the delivery orchestrator: acknowledge, download
  (outcome injected through an environment), size-check against
  `TG_SIZE_LIMIT`, then either send the whole file or split it with
  chunk size `CHUNK_SIZE` and upload the parts in order, deleting
  artifacts along the way exactly where the source does.

The filesystem is a map from paths to byte lists; bytes are `Nat`.
Chat-visible side effects are a trace of events (one `ack` for the
initial reply, one `edit` per status edit, one `upload` per attempted
`send_document`).  Blocking upload calls may fail; outcomes are injected
via `Env.sendOk`.  The text of each status message is reconstructed by
`renderMsg`, mirroring the source's f-strings.
-/

/-- Bytes of a file, one `Nat` (0–255 in practice) per byte. -/
abbrev Bytes := List Nat

/-- A filesystem: paths to file contents, `none` when the file is absent. -/
abbrev FS := String → Option Bytes

/-- Create/overwrite a file (mirrors `open(p,'wb')` + `write`). -/
def fsWrite (fs : FS) (p : String) (b : Bytes) : FS :=
  fun q => if q = p then some b else fs q

/-- Delete a file (mirrors `os.remove(p)`). -/
def fsRemove (fs : FS) (p : String) : FS :=
  fun q => if q = p then none else fs q

/-- A filesystem holding exactly one file. -/
def constFS (p : String) (b : Bytes) : FS :=
  fun q => if q = p then some b else none

/-- Telegram inline-attachment ceiling from the source: `50 * 1024 * 1024`. -/
def TG_SIZE_LIMIT : Nat := 50 * 1024 * 1024

/-- Part size used by the orchestrator: `48 * 1024 * 1024`. -/
def CHUNK_SIZE : Nat := 48 * 1024 * 1024

/-- One iteration of `split_file`'s read loop per unit of fuel:
`chunk = f.read(chunk_size); if not chunk: break`.  The fuel is
instantiated with the file length, which bounds the number of
iterations whenever the loop terminates (each successful read consumes
at least one byte; with `chunk_size = 0` the first read is empty and
the loop stops at once, as in Python). -/
def chunksOfGo (c : Nat) : Nat → Bytes → List Bytes
  | 0, _ => []
  | fuel + 1, data =>
    let chunk := data.take c
    if chunk = [] then [] else chunk :: chunksOfGo c fuel (data.drop c)

/-- The sequence of windows `split_file` reads from a file. -/
def chunksOf (c : Nat) (data : Bytes) : List Bytes :=
  chunksOfGo c data.length data

/-- Decimal digits of `n`, most significant first (fuel-driven version of
the usual `n / 10` recursion; `fuel = n` always suffices). -/
def decDigitsGo : Nat → Nat → List Nat
  | 0, n => [n]
  | fuel + 1, n => if n < 10 then [n] else decDigitsGo fuel (n / 10) ++ [n % 10]

/-- Decimal digits of `n`, most significant first. -/
def decDigits (n : Nat) : List Nat := decDigitsGo n n

/-- Digits of `n` zero-padded on the left to a minimum width of 3,
mirroring Python's `{n:03d}` for nonnegative `n`. -/
def pad3digits (n : Nat) : List Nat :=
  List.replicate (3 - (decDigits n).length) 0 ++ decDigits n

/-- The name of part `idx`, mirroring `f"{path}.part{idx:03d}"`. -/
def partName (path : String) (idx : Nat) : String :=
  path ++ ".part" ++ String.mk ((pad3digits idx).map Nat.digitChar)

/-- The 1-based, sequence-ordered part names for `n` parts. -/
def partNames (path : String) (n : Nat) : List String :=
  (List.range' 1 n).map (partName path)

/-- Write the windows to their part files, collecting names in sequence
order; mirrors the body of `split_file`'s loop starting at index `i`. -/
def writeParts (path : String) : FS → Nat → List Bytes → FS × List String
  | fs, _, [] => (fs, [])
  | fs, i, ch :: rest =>
    let pp := partName path i
    let r := writeParts path (fsWrite fs pp ch) (i + 1) rest
    (r.1, pp :: r.2)

/-- The segmenter `split_file(path, chunk_size)`: `none` when the source
file cannot be opened, otherwise the updated filesystem and the ordered
list of part paths it returns. -/
def split_file (fs : FS) (path : String) (chunkSize : Nat) :
    Option (FS × List String) :=
  match fs path with
  | none => none
  | some data => some (writeParts path fs 1 (chunksOf chunkSize data))

/-- Decimal value of a digit list, most significant first. -/
def digitsVal (l : List Nat) : Nat := l.foldl (fun a d => 10 * a + d) 0

/-- Byte-wise (code-point-wise) lexicographic strict order on character
lists — the order in which part files appear in a directory listing. -/
def lexLt : List Char → List Char → Bool
  | [], [] => false
  | [], _ :: _ => true
  | _ :: _, [] => false
  | a :: as, b :: bs =>
    if a.toNat < b.toNat then true
    else if b.toNat < a.toNat then false
    else lexLt as bs

/-- Python's `needle in hay` when `needle` is a prefix of `hay`. -/
def startsWithList : List Char → List Char → Bool
  | [], _ => true
  | _ :: _, [] => false
  | a :: as, b :: bs => a = b && startsWithList as bs

/-- Python's substring test `needle in hay`. -/
def listContains (hay needle : List Char) : Bool :=
  startsWithList needle hay ||
    match hay with
    | [] => false
    | _ :: t => listContains t needle

/-- `s.lower()` restricted to ASCII case folding. -/
def lowerStr (s : String) : String := String.mk (s.data.map Char.toLower)

/-- The restriction-keyword test from `handle_download`:
`'age-restricted' in msg.lower() or 'login' in msg.lower() or 'private' in msg.lower()`. -/
def restricted (msg : String) : Bool :=
  listContains (lowerStr msg).data "age-restricted".data ||
    listContains (lowerStr msg).data "login".data ||
    listContains (lowerStr msg).data "private".data

/-- The credential hint appended to restriction-related download failures. -/
def credentialHint : String :=
  "\n\nHint: This video may require login/cookies. " ++
    "Set YTDLP_COOKIES_CONTENT (exported cookies.txt content) in env and restart."

/-- One constructor per distinct status message the orchestrator emits,
each carrying the data interpolated into the source's f-string. -/
inductive Msg
  | mQueued (url : String)
  | mDownloadFailed (cause : String)
  | mAccessFailed (cause : String)
  | mUploading (name : String) (mb : Nat)
  | mUploadFailed (cause : String)
  | mDoneSingle
  | mSplitting (mb : Nat)
  | mDoneParts
  | mSplitFailed (cause : String)
deriving DecidableEq

/-- The text of each status message, mirroring the source's f-strings. -/
def renderMsg : Msg → String
  | .mQueued url => "Queued: " ++ url ++ "\nStarting download..."
  | .mDownloadFailed cause =>
      "❌ Download failed: " ++ cause ++
        (if restricted cause then credentialHint else "")
  | .mAccessFailed cause => "Downloaded but failed to access file: " ++ cause
  | .mUploading name mb => "Uploading " ++ name ++ " (" ++ toString mb ++ " MB)..."
  | .mUploadFailed cause => "Upload failed: " ++ cause
  | .mDoneSingle => "✅ Done — file sent."
  | .mSplitting mb =>
      "File is " ++ toString mb ++ " MB (>50MB). Splitting into parts..."
  | .mDoneParts => "✅ Done — big file sent in parts."
  | .mSplitFailed cause => "Failed to split/upload parts: " ++ cause

/-- Chat-visible events: the initial `reply_text` acknowledgement, a
`status.edit_text`, or an attempted `send_document` (recorded by the
path of the file handed to the transport). -/
inductive Ev
  | ack (m : Msg)
  | edit (m : Msg)
  | upload (p : String)
deriving DecidableEq

/-- The environment a single request runs in: the injected outcome of
the blocking yt-dlp call (`error cause` or `ok filepath`), the
filesystem as it stands right after that call, the outcome of the k-th
`send_document` call of this request, and the exception texts used when
an upload or `os.path.getsize` fails. -/
structure Env where
  dlResult : Except String String
  fs0 : FS
  sendOk : Nat → Bool
  sendErr : String
  statErr : String

/-- Result of the part-upload loop: its events, the filesystem it
leaves behind, and whether every upload succeeded. -/
structure LoopOut where
  evs : List Ev
  fs : FS
  ok : Bool

/-- The `for p in parts:` loop of `handle_download`: attempt to upload
each part in order; after a successful upload the part is removed
(best-effort) before the next upload; the first failure aborts the
loop, leaving the failed part and all later parts in place. -/
def uploadLoop (sendOk : Nat → Bool) : FS → Nat → List String → LoopOut
  | fs, _, [] => ⟨[], fs, true⟩
  | fs, k, p :: ps =>
    if sendOk k then
      let r := uploadLoop sendOk (fsRemove fs p) (k + 1) ps
      ⟨Ev.upload p :: r.evs, r.fs, r.ok⟩
    else ⟨[Ev.upload p], fs, false⟩

/-- The orchestrator `handle_download` from the initial acknowledgement
onward, as a function of the request's environment.  Returns the event
trace and the final filesystem. -/
def handle_download (url : String) (env : Env) : List Ev × FS :=
  let ack := Ev.ack (Msg.mQueued url)
  match env.dlResult with
  | .error cause => ([ack, Ev.edit (Msg.mDownloadFailed cause)], env.fs0)
  | .ok filepath =>
    match env.fs0 filepath with
    | none => ([ack, Ev.edit (Msg.mAccessFailed env.statErr)], env.fs0)
    | some data =>
      if data.length ≤ TG_SIZE_LIMIT then
        if env.sendOk 0 then
          ([ack, Ev.edit (Msg.mUploading filepath (data.length / 1024 / 1024)),
            Ev.upload filepath, Ev.edit Msg.mDoneSingle],
           fsRemove env.fs0 filepath)
        else
          ([ack, Ev.edit (Msg.mUploading filepath (data.length / 1024 / 1024)),
            Ev.upload filepath, Ev.edit (Msg.mUploadFailed env.sendErr)],
           fsRemove env.fs0 filepath)
      else
        match split_file env.fs0 filepath CHUNK_SIZE with
        | none =>
          ([ack, Ev.edit (Msg.mSplitting (data.length / 1024 / 1024)),
            Ev.edit (Msg.mSplitFailed env.sendErr)], env.fs0)
        | some (fs1, names) =>
          let r := uploadLoop env.sendOk fs1 0 names
          if r.ok then
            (Ev.ack (Msg.mQueued url) ::
               Ev.edit (Msg.mSplitting (data.length / 1024 / 1024)) ::
               r.evs ++ [Ev.edit Msg.mDoneParts],
             fsRemove r.fs filepath)
          else
            (Ev.ack (Msg.mQueued url) ::
               Ev.edit (Msg.mSplitting (data.length / 1024 / 1024)) ::
               r.evs ++ [Ev.edit (Msg.mSplitFailed env.sendErr)],
             r.fs)

/-- Is this event the initial acknowledgement? -/
def isAckEv : Ev → Bool
  | .ack _ => true
  | _ => false

/-- Is this message an intermediate progress message? -/
def isProgressMsg : Msg → Bool
  | .mUploading _ _ => true
  | .mSplitting _ => true
  | _ => false

/-- Is this message terminal (success or failure)? -/
def isTerminalMsg : Msg → Bool
  | .mDownloadFailed _ => true
  | .mAccessFailed _ => true
  | .mUploadFailed _ => true
  | .mDoneSingle => true
  | .mDoneParts => true
  | .mSplitFailed _ => true
  | _ => false

/-- Is this event an intermediate progress edit? -/
def isProgressEv : Ev → Bool
  | .edit m => isProgressMsg m
  | _ => false

/-- Is this event a terminal edit? -/
def isTerminalEv : Ev → Bool
  | .edit m => isTerminalMsg m
  | _ => false

/-- Is this event the `Splitting into parts` progress edit? -/
def isSplitMsgEv : Ev → Bool
  | .edit (Msg.mSplitting _) => true
  | _ => false

/-- Is this event the whole-file `Uploading …` progress edit? -/
def isDirectMsgEv : Ev → Bool
  | .edit (Msg.mUploading _ _) => true
  | _ => false

/-- Did the trace take the splitting path? -/
def tookSplit (t : List Ev) : Bool := t.any isSplitMsgEv

/-- Did the trace take the direct-send path? -/
def tookDirect (t : List Ev) : Bool := t.any isDirectMsgEv

/-- The paths of all attempted uploads, in issue order. -/
def uploadsOf (t : List Ev) : List String :=
  t.filterMap fun e =>
    match e with
    | Ev.upload p => some p
    | _ => none

/-! ### Lemmas about the chunking loop -/

theorem chunksOfGo_nil (c fuel : Nat) : chunksOfGo c fuel [] = [] := by
  cases fuel <;> simp [chunksOfGo]

theorem chunksOfGo_join (c : Nat) (hc : 0 < c) :
    ∀ fuel data, data.length ≤ fuel → (chunksOfGo c fuel data).flatten = data := by
  intro fuel
  induction fuel with
  | zero =>
    intro data h
    have : data = [] := List.length_eq_zero.mp (Nat.le_zero.mp h)
    simp [this, chunksOfGo]
  | succ n ih =>
    intro data h
    by_cases hd : data = []
    · simp [hd, chunksOfGo]
    · have hne : data.take c ≠ [] := by
        intro htk
        rcases List.take_eq_nil_iff.mp htk with h0 | h0
        · omega
        · exact hd h0
      have hlen : (data.drop c).length ≤ n := by
        have hpos : 0 < data.length := List.length_pos.mpr hd
        simp only [List.length_drop]
        omega
      simp only [chunksOfGo, if_neg hne, List.flatten]
      rw [ih _ hlen, List.take_append_drop]

theorem chunksOf_join (c : Nat) (hc : 0 < c) (data : Bytes) :
    (chunksOf c data).flatten = data :=
  chunksOfGo_join c hc data.length data le_rfl

theorem ceil_step (n c : Nat) (hn : 0 < n) (hc : 0 < c) :
    (n - c + c - 1) / c + 1 = (n + c - 1) / c := by
  have h2 : n + c - 1 = (n - 1) + c := by omega
  rw [h2, Nat.add_div_right _ hc]
  congr 1
  rcases le_or_lt n c with hle | hlt
  · rw [Nat.div_eq_of_lt (by omega : n - c + c - 1 < c),
      Nat.div_eq_of_lt (by omega : n - 1 < c)]
  · have h3 : n - c + c - 1 = (n - c - 1) + c := by omega
    have h4 : n - 1 = (n - c - 1) + c := by omega
    rw [h3, h4]

theorem chunksOfGo_length (c : Nat) (hc : 0 < c) :
    ∀ fuel data, data.length ≤ fuel →
      (chunksOfGo c fuel data).length = (data.length + c - 1) / c := by
  intro fuel
  induction fuel with
  | zero =>
    intro data h
    have : data = [] := List.length_eq_zero.mp (Nat.le_zero.mp h)
    subst this
    simp only [chunksOfGo, List.length_nil]
    exact (Nat.div_eq_of_lt (by omega : 0 + c - 1 < c)).symm
  | succ n ih =>
    intro data h
    by_cases hd : data = []
    · subst hd
      simp only [chunksOfGo, List.take_nil, List.length_nil, if_pos rfl]
      exact (Nat.div_eq_of_lt (by omega : 0 + c - 1 < c)).symm
    · have hpos : 0 < data.length := List.length_pos.mpr hd
      have hne : data.take c ≠ [] := by
        intro htk
        rcases List.take_eq_nil_iff.mp htk with h0 | h0
        · omega
        · exact hd h0
      have hlen : (data.drop c).length ≤ n := by
        simp only [List.length_drop]; omega
      simp only [chunksOfGo, if_neg hne, List.length_cons]
      rw [ih _ hlen]
      simp only [List.length_drop]
      exact ceil_step data.length c hpos hc

theorem chunksOf_length (c : Nat) (hc : 0 < c) (data : Bytes) :
    (chunksOf c data).length = (data.length + c - 1) / c :=
  chunksOfGo_length c hc data.length data le_rfl

theorem chunksOfGo_sizes (c : Nat) :
    ∀ fuel data, ∀ ch ∈ chunksOfGo c fuel data, ch.length ≤ c := by
  intro fuel
  induction fuel with
  | zero => intro data ch h; simp [chunksOfGo] at h
  | succ n ih =>
    intro data ch h
    simp only [chunksOfGo] at h
    split at h
    · simp at h
    · rcases List.mem_cons.mp h with h | h
      · subst h
        rw [List.length_take]
        exact min_le_left _ _
      · exact ih _ ch h

theorem chunksOf_sizes (c : Nat) (data : Bytes) :
    ∀ ch ∈ chunksOf c data, ch.length ≤ c :=
  chunksOfGo_sizes c data.length data

theorem chunksOfGo_one :
    ∀ fuel data, data.length ≤ fuel →
      chunksOfGo 1 fuel data = data.map (fun x => [x]) := by
  intro fuel
  induction fuel with
  | zero =>
    intro data h
    have : data = [] := List.length_eq_zero.mp (Nat.le_zero.mp h)
    simp [this, chunksOfGo]
  | succ n ih =>
    intro data h
    cases data with
    | nil => simp [chunksOfGo]
    | cons x xs =>
      have hlen : xs.length ≤ n := by simp at h; omega
      simp [chunksOfGo, List.take, List.drop, ih xs hlen]

theorem chunksOf_one (data : Bytes) :
    chunksOf 1 data = data.map (fun x => [x]) :=
  chunksOfGo_one data.length data le_rfl

/-! ### Lemmas about decimal rendering and part names -/

theorem digitsVal_append_single (l : List Nat) (d : Nat) :
    digitsVal (l ++ [d]) = 10 * digitsVal l + d := by
  simp [digitsVal, List.foldl_append]

theorem decDigitsGo_val :
    ∀ fuel n, n ≤ fuel → digitsVal (decDigitsGo fuel n) = n := by
  intro fuel
  induction fuel with
  | zero =>
    intro n h
    have : n = 0 := Nat.le_zero.mp h
    simp [this, decDigitsGo, digitsVal]
  | succ f ih =>
    intro n h
    by_cases h10 : n < 10
    · simp [decDigitsGo, if_pos h10, digitsVal]
    · have hfuel : n / 10 ≤ f := by
        have : n / 10 < n := Nat.div_lt_self (by omega) (by omega)
        omega
      simp only [decDigitsGo, if_neg h10]
      rw [digitsVal_append_single, ih _ hfuel]
      omega

theorem decDigits_val (n : Nat) : digitsVal (decDigits n) = n :=
  decDigitsGo_val n n le_rfl

theorem digitsVal_replicate_zero (k : Nat) (l : List Nat) :
    digitsVal (List.replicate k 0 ++ l) = digitsVal l := by
  induction k with
  | zero => simp
  | succ m ih => simpa [digitsVal, List.replicate_succ] using ih

theorem pad3digits_val (n : Nat) : digitsVal (pad3digits n) = n := by
  rw [pad3digits, digitsVal_replicate_zero, decDigits_val]

theorem decDigitsGo_lt10 :
    ∀ fuel n, n ≤ fuel → ∀ d ∈ decDigitsGo fuel n, d < 10 := by
  intro fuel
  induction fuel with
  | zero =>
    intro n h d hd
    have : n = 0 := Nat.le_zero.mp h
    subst this
    simp [decDigitsGo] at hd
    omega
  | succ f ih =>
    intro n h d hd
    by_cases h10 : n < 10
    · simp [decDigitsGo, if_pos h10] at hd
      omega
    · have hfuel : n / 10 ≤ f := by
        have : n / 10 < n := Nat.div_lt_self (by omega) (by omega)
        omega
      simp only [decDigitsGo, if_neg h10, List.mem_append, List.mem_singleton] at hd
      rcases hd with hd | hd
      · exact ih _ hfuel d hd
      · subst hd
        exact Nat.mod_lt _ (by omega)

theorem pad3digits_lt10 (n : Nat) : ∀ d ∈ pad3digits n, d < 10 := by
  intro d hd
  rcases List.mem_append.mp hd with h | h
  · have := List.eq_of_mem_replicate h
    omega
  · exact decDigitsGo_lt10 n n le_rfl d h

theorem digitChar_inj10 :
    ∀ a < 10, ∀ b < 10, Nat.digitChar a = Nat.digitChar b → a = b := by decide

theorem map_digitChar_inj :
    ∀ l1 l2 : List Nat, (∀ d ∈ l1, d < 10) → (∀ d ∈ l2, d < 10) →
      l1.map Nat.digitChar = l2.map Nat.digitChar → l1 = l2 := by
  intro l1
  induction l1 with
  | nil => intro l2 _ _ h; cases l2 <;> simp_all
  | cons a as ih =>
    intro l2 h1 h2 h
    cases l2 with
    | nil => simp at h
    | cons b bs =>
      simp only [List.map_cons, List.cons.injEq] at h
      have ha : a = b :=
        digitChar_inj10 a (h1 a (by simp)) b (h2 b (by simp)) h.1
      have hb : as = bs :=
        ih bs (fun d hd => h1 d (by simp [hd])) (fun d hd => h2 d (by simp [hd])) h.2
      simp [ha, hb]

theorem string_data_append (s t : String) : (s ++ t).data = s.data ++ t.data :=
  String.data_append s t

theorem partName_data (path : String) (idx : Nat) :
    (partName path idx).data =
      path.data ++ (".part".data ++ (pad3digits idx).map Nat.digitChar) := by
  rw [partName, string_data_append, string_data_append]
  simp [List.append_assoc]

theorem partName_inj (path : String) (a b : Nat)
    (h : partName path a = partName path b) : a = b := by
  have hd := congrArg String.data h
  rw [partName_data, partName_data] at hd
  have h1 := List.append_cancel_left hd
  have h2 := List.append_cancel_left h1
  have h3 := map_digitChar_inj _ _ (pad3digits_lt10 a) (pad3digits_lt10 b) h2
  have := congrArg digitsVal h3
  rwa [pad3digits_val, pad3digits_val] at this

theorem partName_ne_self (path : String) (idx : Nat) :
    partName path idx ≠ path := by
  intro h
  have hd := congrArg String.data h
  rw [partName_data] at hd
  have hlen := congrArg List.length hd
  have h5 : (".part".data).length = 5 := rfl
  simp only [List.length_append, h5] at hlen
  omega

/-! ### Lemmas about writing the parts -/

theorem writeParts_names (path : String) :
    ∀ chunks (fs : FS) (i : Nat),
      (writeParts path fs i chunks).2 =
        (List.range' i chunks.length).map (partName path) := by
  intro chunks
  induction chunks with
  | nil => intro fs i; simp [writeParts]
  | cons ch rest ih =>
    intro fs i
    simp only [writeParts, List.length_cons, List.range'_succ, List.map_cons]
    rw [ih]

theorem writeParts_preserve (path : String) :
    ∀ chunks (fs : FS) (i : Nat) (q : String),
      q ∉ (writeParts path fs i chunks).2 →
      (writeParts path fs i chunks).1 q = fs q := by
  intro chunks
  induction chunks with
  | nil => intro fs i q _; simp [writeParts]
  | cons ch rest ih =>
    intro fs i q hq
    simp only [writeParts, List.mem_cons, not_or] at hq ⊢
    rw [ih _ _ _ hq.2]
    simp [fsWrite, if_neg hq.1]

theorem partName_not_mem_later (path : String) (i len : Nat) :
    partName path i ∉ (List.range' (i + 1) len).map (partName path) := by
  intro hmem
  rcases List.mem_map.mp hmem with ⟨j, hj, heq⟩
  have hj2 := List.mem_range'_1.mp hj
  have := partName_inj path j i heq
  omega

theorem writeParts_read_map (path : String) :
    ∀ chunks (fs : FS) (i : Nat),
      (writeParts path fs i chunks).2.map
        (fun q => ((writeParts path fs i chunks).1 q).getD []) = chunks := by
  intro chunks
  induction chunks with
  | nil => intro fs i; simp [writeParts]
  | cons ch rest ih =>
    intro fs i
    simp only [writeParts, List.map_cons]
    have hfresh : partName path i ∉
        (writeParts path (fsWrite fs (partName path i) ch) (i + 1) rest).2 := by
      rw [writeParts_names]
      exact partName_not_mem_later path i rest.length
    have hread :
        (writeParts path (fsWrite fs (partName path i) ch) (i + 1) rest).1
          (partName path i) = some ch := by
      rw [writeParts_preserve path rest _ _ _ hfresh]
      simp [fsWrite]
    rw [hread]
    simp only [Option.getD_some, List.cons.injEq, true_and]
    exact ih _ _

theorem writeParts_mem_read (path : String) :
    ∀ chunks (fs : FS) (i : Nat),
      ∀ q ∈ (writeParts path fs i chunks).2,
        ∃ ch ∈ chunks, (writeParts path fs i chunks).1 q = some ch := by
  intro chunks
  induction chunks with
  | nil => intro fs i q hq; simp [writeParts] at hq
  | cons ch rest ih =>
    intro fs i q hq
    simp only [writeParts, List.mem_cons] at hq ⊢
    rcases hq with hq | hq
    · subst hq
      refine ⟨ch, Or.inl rfl, ?_⟩
      have hfresh : partName path i ∉
          (writeParts path (fsWrite fs (partName path i) ch) (i + 1) rest).2 := by
        rw [writeParts_names]
        exact partName_not_mem_later path i rest.length
      rw [writeParts_preserve path rest _ _ _ hfresh]
      simp [fsWrite]
    · rcases ih (fsWrite fs (partName path i) ch) (i + 1) q hq with ⟨ch2, hch2, hval⟩
      exact ⟨ch2, Or.inr hch2, hval⟩

/-! ### Claim C1: segmenter round-trip and part count -/

/-- C1: for every file of `N` bytes and every positive chunk size `C`,
concatenating the parts produced by `split_file` in sequence order
yields exactly the original file's bytes, and the number of parts is
`ceil(N / C)` for `N > 0` and `0` for `N = 0`. -/
theorem C1_split_roundtrip (fs : FS) (path : String) (data : Bytes) (c : Nat)
    (hc : 0 < c) (hf : fs path = some data) :
    ∃ fs1 names, split_file fs path c = some (fs1, names) ∧
      (names.map (fun q => (fs1 q).getD [])).flatten = data ∧
      names.length =
        (if data.length = 0 then 0 else (data.length + c - 1) / c) := by
  refine ⟨(writeParts path fs 1 (chunksOf c data)).1,
    (writeParts path fs 1 (chunksOf c data)).2, ?_, ?_, ?_⟩
  · rw [split_file, hf]
  · rw [writeParts_read_map path (chunksOf c data) fs 1]
    exact chunksOf_join c hc data
  · rw [writeParts_names, List.length_map, List.length_range',
      chunksOf_length c hc data]
    by_cases h0 : data.length = 0
    · rw [if_pos h0, h0]
      exact Nat.div_eq_of_lt (by omega)
    · rw [if_neg h0]

/-- Witness for C1 at a concrete five-byte file with chunk size 2. -/
theorem C1_split_roundtrip_witness :
    ∃ fs1 names,
      split_file (constFS "f" [0, 1, 2, 3, 4]) "f" 2 = some (fs1, names) ∧
      (names.map (fun q => (fs1 q).getD [])).flatten = [0, 1, 2, 3, 4] ∧
      names.length = (if ([0, 1, 2, 3, 4] : Bytes).length = 0 then 0
        else (([0, 1, 2, 3, 4] : Bytes).length + 2 - 1) / 2) :=
  C1_split_roundtrip (constFS "f" [0, 1, 2, 3, 4]) "f" [0, 1, 2, 3, 4] 2
    (by decide) rfl

/-! ### Claim C8: the segmenter never touches the source file -/

/-- C8: after `split_file` returns, the source file still exists with
byte-identical contents, and every path other than the returned part
names is untouched (so the only files created are the part files). -/
theorem C8_source_untouched (fs : FS) (path : String) (data : Bytes) (c : Nat)
    (hf : fs path = some data) :
    ∃ fs1 names, split_file fs path c = some (fs1, names) ∧
      fs1 path = some data ∧
      ∀ q, q ∉ names → fs1 q = fs q := by
  refine ⟨(writeParts path fs 1 (chunksOf c data)).1,
    (writeParts path fs 1 (chunksOf c data)).2, ?_, ?_, ?_⟩
  · rw [split_file, hf]
  · have hpath : path ∉ (writeParts path fs 1 (chunksOf c data)).2 := by
      rw [writeParts_names]
      intro hmem
      rcases List.mem_map.mp hmem with ⟨j, _, heq⟩
      exact partName_ne_self path j heq
    rw [writeParts_preserve path _ _ _ _ hpath, hf]
  · exact fun q hq => writeParts_preserve path _ _ _ _ hq

/-- Witness for C8 at a concrete three-byte file with chunk size 2. -/
theorem C8_source_untouched_witness :
    ∃ fs1 names,
      split_file (constFS "s" [7, 8, 9]) "s" 2 = some (fs1, names) ∧
      fs1 "s" = some [7, 8, 9] ∧
      ∀ q, q ∉ names → fs1 q = constFS "s" [7, 8, 9] q :=
  C8_source_untouched (constFS "s" [7, 8, 9]) "s" [7, 8, 9] 2 rfl

/-! ### Claim C9: chunk limit below the transport limit; parts bounded -/

/-- C9: the configured part size (`CHUNK_SIZE`, 48 MiB) is strictly
below the transport's inline-attachment limit (`TG_SIZE_LIMIT`,
50 MiB), and every part produced by the segmenter exists on disk with
size at most the chunk size it was invoked with. -/
theorem C9_chunk_bound :
    CHUNK_SIZE < TG_SIZE_LIMIT ∧
    ∀ (fs : FS) (path : String) (data : Bytes) (c : Nat),
      fs path = some data →
      ∃ fs1 names, split_file fs path c = some (fs1, names) ∧
        ∀ q ∈ names, ∃ b, fs1 q = some b ∧ b.length ≤ c := by
  constructor
  · decide
  · intro fs path data c hf
    refine ⟨(writeParts path fs 1 (chunksOf c data)).1,
      (writeParts path fs 1 (chunksOf c data)).2, ?_, ?_⟩
    · rw [split_file, hf]
    · intro q hq
      rcases writeParts_mem_read path (chunksOf c data) fs 1 q hq with
        ⟨ch, hch, hval⟩
      exact ⟨ch, hval, chunksOf_sizes c data ch hch⟩

/-- Witness for C9's quantified half at a concrete file. -/
theorem C9_chunk_bound_witness :
    ∃ fs1 names,
      split_file (constFS "w" [1, 2, 3]) "w" 2 = some (fs1, names) ∧
      ∀ q ∈ names, ∃ b, fs1 q = some b ∧ b.length ≤ 2 :=
  C9_chunk_bound.2 (constFS "w" [1, 2, 3]) "w" [1, 2, 3] 2 rfl

/-! ### Lemmas about the part-upload loop -/

theorem uploadLoop_none_mono (sendOk : Nat → Bool) :
    ∀ names (fs : FS) (k : Nat) (q : String),
      fs q = none → (uploadLoop sendOk fs k names).fs q = none := by
  intro names
  induction names with
  | nil => intro fs k q h; simpa [uploadLoop] using h
  | cons p ps ih =>
    intro fs k q h
    simp only [uploadLoop]
    by_cases hs : sendOk k
    · simp only [if_pos hs]
      exact ih _ _ q (by simp [fsRemove, h])
    · simpa [if_neg hs] using h

theorem uploadLoop_evs_uploads (sendOk : Nat → Bool) :
    ∀ names (fs : FS) (k : Nat),
      ∀ e ∈ (uploadLoop sendOk fs k names).evs, ∃ p, e = Ev.upload p := by
  intro names
  induction names with
  | nil => intro fs k e h; simp [uploadLoop] at h
  | cons p ps ih =>
    intro fs k e h
    simp only [uploadLoop] at h
    by_cases hs : sendOk k
    · simp only [if_pos hs, List.mem_cons] at h
      rcases h with h | h
      · exact ⟨p, h⟩
      · exact ih _ _ e h
    · simp only [if_neg hs, List.mem_singleton] at h
      exact ⟨p, h⟩

theorem uploadLoop_all_ok (sendOk : Nat → Bool) :
    ∀ names (fs : FS) (k : Nat),
      (∀ i, i < names.length → sendOk (k + i) = true) →
      (uploadLoop sendOk fs k names).ok = true ∧
      ∀ q ∈ names, (uploadLoop sendOk fs k names).fs q = none := by
  intro names
  induction names with
  | nil => intro fs k _; simp [uploadLoop]
  | cons p ps ih =>
    intro fs k h
    have h0 : sendOk k = true := by simpa using h 0 (by simp)
    have hrest : ∀ i, i < ps.length → sendOk (k + 1 + i) = true := by
      intro i hi
      have := h (i + 1) (by simpa using Nat.succ_lt_succ hi)
      simpa [Nat.add_assoc, Nat.add_comm 1 i] using this
    rcases ih (fsRemove fs p) (k + 1) hrest with ⟨hok, hfs⟩
    simp only [uploadLoop, if_pos h0]
    refine ⟨hok, ?_⟩
    intro q hq
    rcases List.mem_cons.mp hq with hq | hq
    · subst hq
      exact uploadLoop_none_mono sendOk ps _ _ q (by simp [fsRemove])
    · exact hfs q hq

theorem uploadsOf_cons_upload (p : String) (t : List Ev) :
    uploadsOf (Ev.upload p :: t) = p :: uploadsOf t := by
  simp [uploadsOf, List.filterMap_cons]

theorem uploadsOf_nil : uploadsOf [] = [] := rfl

theorem uploadLoop_is_prefix (sendOk : Nat → Bool) :
    ∀ names (fs : FS) (k : Nat),
      List.IsPrefix (uploadsOf (uploadLoop sendOk fs k names).evs) names := by
  intro names
  induction names with
  | nil => intro fs k; simp [uploadLoop, uploadsOf]
  | cons p ps ih =>
    intro fs k
    simp only [uploadLoop]
    by_cases hs : sendOk k
    · simp only [if_pos hs]
      rcases ih (fsRemove fs p) (k + 1) with ⟨t, ht⟩
      refine ⟨t, ?_⟩
      dsimp only
      rw [uploadsOf_cons_upload, List.cons_append, ht]
    · simp only [if_neg hs]
      refine ⟨ps, ?_⟩
      dsimp only
      rw [uploadsOf_cons_upload, uploadsOf_nil]
      rfl

/-! ### Claim C10: parts are deleted as soon as they are uploaded -/

/-- C10: when uploads `k` through `k + j - 1` succeed and upload `k + j`
fails, the loop aborts (`ok = false`), exactly the first `j + 1` parts
were handed to the transport (in order), and every part whose upload
succeeded has already been removed from disk. -/
theorem C10_eager_delete (sendOk : Nat → Bool) (fs : FS) (k j : Nat)
    (names : List String) (hj : j < names.length)
    (hok : ∀ i, i < j → sendOk (k + i) = true)
    (hfail : sendOk (k + j) = false) :
    (uploadLoop sendOk fs k names).ok = false ∧
    (uploadLoop sendOk fs k names).evs = (names.take (j + 1)).map Ev.upload ∧
    ∀ i q, i < j → names[i]? = some q →
      (uploadLoop sendOk fs k names).fs q = none := by
  induction names generalizing fs k j with
  | nil => simp at hj
  | cons p ps ih =>
    cases j with
    | zero =>
      have h0 : sendOk k = false := hfail
      refine ⟨?_, ?_, ?_⟩
      · simp [uploadLoop, h0]
      · simp [uploadLoop, h0]
      · intro i q hi
        omega
    | succ j' =>
      have h0 : sendOk k = true := by simpa using hok 0 (by omega)
      have hok' : ∀ i, i < j' → sendOk (k + 1 + i) = true := by
        intro i hi
        have := hok (i + 1) (by omega)
        simpa [Nat.add_assoc, Nat.add_comm 1 i] using this
      have hfail' : sendOk (k + 1 + j') = false := by
        have : k + 1 + j' = k + (j' + 1) := by omega
        rw [this]
        exact hfail
      have hj' : j' < ps.length := by simpa using hj
      rcases ih (fsRemove fs p) (k + 1) j' hj' hok' hfail' with ⟨h1, h2, h3⟩
      simp only [uploadLoop, if_pos h0]
      refine ⟨h1, ?_, ?_⟩
      · simp only [List.take_succ_cons, List.map_cons]
        rw [h2]
      · intro i q hi hq
        cases i with
        | zero =>
          simp only [List.getElem?_cons_zero, Option.some.injEq] at hq
          subst hq
          exact uploadLoop_none_mono sendOk ps _ _ p (by simp [fsRemove])
        | succ i' =>
          simp only [List.getElem?_cons_succ] at hq
          exact h3 i' q (by omega) hq

/-- Witness for C10: three parts, the second upload fails. -/
def sendOkW : Nat → Bool := fun i => decide (i = 0)

/-- A one-file filesystem used by loop witnesses. -/
def fsW : FS := fun _ => some [1]

/-- Witness for C10 at a concrete three-part list where upload 1 fails. -/
theorem C10_eager_delete_witness :
    (uploadLoop sendOkW fsW 0 ["a", "b", "c"]).ok = false ∧
    (uploadLoop sendOkW fsW 0 ["a", "b", "c"]).evs =
      [Ev.upload "a", Ev.upload "b"] ∧
    (uploadLoop sendOkW fsW 0 ["a", "b", "c"]).fs "a" = none := by
  have h := C10_eager_delete sendOkW fsW 0 1 ["a", "b", "c"]
    (by decide) (by decide) (by decide)
  exact ⟨h.1, by simpa using h.2.1, h.2.2 0 "a" (by decide) rfl⟩

/-! ### Claim C7: the message stream of a request -/

theorem uploadLoop_countP_zero (sendOk : Nat → Bool) (pred : Ev → Bool)
    (hp : ∀ p, pred (Ev.upload p) = false) (names : List String) (fs : FS)
    (k : Nat) : List.countP pred (uploadLoop sendOk fs k names).evs = 0 := by
  rw [List.countP_eq_zero]
  intro e he
  rcases uploadLoop_evs_uploads sendOk names fs k e he with ⟨p, rfl⟩
  simp [hp p]

/-- C7: every request's trace starts with exactly the initial
acknowledgement, contains exactly one acknowledgement in total, at most
one progress message, and exactly one terminal message. -/
theorem C7_message_stream (url : String) (env : Env) :
    (handle_download url env).1.head? = some (Ev.ack (Msg.mQueued url)) ∧
    List.countP isAckEv (handle_download url env).1 = 1 ∧
    List.countP isProgressEv (handle_download url env).1 ≤ 1 ∧
    List.countP isTerminalEv (handle_download url env).1 = 1 := by
  have hA := uploadLoop_countP_zero env.sendOk isAckEv (fun p => rfl)
  have hP := uploadLoop_countP_zero env.sendOk isProgressEv (fun p => rfl)
  have hT := uploadLoop_countP_zero env.sendOk isTerminalEv (fun p => rfl)
  rcases hdl : env.dlResult with cause | filepath
  · refine ⟨?_, ?_, ?_, ?_⟩ <;>
      simp [handle_download, hdl, isAckEv, isProgressEv, isTerminalEv,
        isProgressMsg, isTerminalMsg, List.countP_cons]
  · rcases hfs : env.fs0 filepath with _ | data
    · refine ⟨?_, ?_, ?_, ?_⟩ <;>
        simp [handle_download, hdl, hfs, isAckEv, isProgressEv, isTerminalEv,
          isProgressMsg, isTerminalMsg, List.countP_cons]
    · by_cases hsize : data.length ≤ TG_SIZE_LIMIT
      · by_cases hsend : env.sendOk 0
        · refine ⟨?_, ?_, ?_, ?_⟩ <;>
            simp [handle_download, hdl, hfs, hsize, hsend, isAckEv,
              isProgressEv, isTerminalEv, isProgressMsg, isTerminalMsg,
              List.countP_cons]
        · refine ⟨?_, ?_, ?_, ?_⟩ <;>
            simp [handle_download, hdl, hfs, hsize, hsend, isAckEv,
              isProgressEv, isTerminalEv, isProgressMsg, isTerminalMsg,
              List.countP_cons]
      · cases hok : (uploadLoop env.sendOk
            (writeParts filepath env.fs0 1 (chunksOf CHUNK_SIZE data)).1 0
            (writeParts filepath env.fs0 1 (chunksOf CHUNK_SIZE data)).2).ok
        · refine ⟨?_, ?_, ?_, ?_⟩ <;>
            simp [handle_download, hdl, hfs, hsize, split_file, hok, hA, hP,
              hT, isAckEv, isProgressEv, isTerminalEv, isProgressMsg,
              isTerminalMsg, List.countP_cons, List.countP_append]
        · refine ⟨?_, ?_, ?_, ?_⟩ <;>
            simp [handle_download, hdl, hfs, hsize, split_file, hok, hA, hP,
              hT, isAckEv, isProgressEv, isTerminalEv, isProgressMsg,
              isTerminalMsg, List.countP_cons, List.countP_append]

/-! ### Claim C3: the size-check boundary -/

theorem uploadLoop_no_split_edit (sendOk : Nat → Bool) (names : List String)
    (fs : FS) (k : Nat) :
    (uploadLoop sendOk fs k names).evs.any isSplitMsgEv = false := by
  rw [List.any_eq_false]
  intro e he
  rcases uploadLoop_evs_uploads sendOk names fs k e he with ⟨p, rfl⟩
  simp [isSplitMsgEv]

theorem uploadLoop_no_direct_edit (sendOk : Nat → Bool) (names : List String)
    (fs : FS) (k : Nat) :
    (uploadLoop sendOk fs k names).evs.any isDirectMsgEv = false := by
  rw [List.any_eq_false]
  intro e he
  rcases uploadLoop_evs_uploads sendOk names fs k e he with ⟨p, rfl⟩
  simp [isDirectMsgEv]

/-- C3: after a successful download, the orchestrator takes the
direct-send path exactly when the file's size is at most
`TG_SIZE_LIMIT`, and the splitting path exactly when the size strictly
exceeds it (so a file of exactly 50 MiB is sent whole and one byte more
is split). -/
theorem C3_threshold (url : String) (env : Env) (filepath : String)
    (data : Bytes) (h1 : env.dlResult = Except.ok filepath)
    (h2 : env.fs0 filepath = some data) :
    (tookDirect (handle_download url env).1 = true ↔
      data.length ≤ TG_SIZE_LIMIT) ∧
    (tookSplit (handle_download url env).1 = true ↔
      TG_SIZE_LIMIT < data.length) := by
  by_cases hsize : data.length ≤ TG_SIZE_LIMIT
  · by_cases hsend : env.sendOk 0 <;>
      constructor <;>
      simp [handle_download, h1, h2, hsize, hsend, tookDirect, tookSplit,
        isDirectMsgEv, isSplitMsgEv, hsize]
  · cases hok : (uploadLoop env.sendOk
        (writeParts filepath env.fs0 1 (chunksOf CHUNK_SIZE data)).1 0
        (writeParts filepath env.fs0 1 (chunksOf CHUNK_SIZE data)).2).ok <;>
      constructor <;>
      simp [handle_download, h1, h2, hsize, split_file, hok, tookDirect,
        tookSplit, isDirectMsgEv, isSplitMsgEv, uploadLoop_no_split_edit,
        uploadLoop_no_direct_edit] <;> omega

/-- Environment for the boundary witness: a file of exactly
`TG_SIZE_LIMIT` bytes was downloaded to `"f"` and uploads succeed. -/
def envAtLimit : Env where
  dlResult := Except.ok "f"
  fs0 := constFS "f" (List.replicate TG_SIZE_LIMIT 0)
  sendOk := fun _ => true
  sendErr := "sendErr"
  statErr := "statErr"

/-- Environment for the boundary witness: a file of
`TG_SIZE_LIMIT + 1` bytes was downloaded to `"f"` and uploads succeed. -/
def envOverLimit : Env where
  dlResult := Except.ok "f"
  fs0 := constFS "f" (List.replicate (TG_SIZE_LIMIT + 1) 0)
  sendOk := fun _ => true
  sendErr := "sendErr"
  statErr := "statErr"

/-- Witness for C3: exactly 50 MiB goes direct, one byte more splits. -/
theorem C3_threshold_witness :
    tookDirect (handle_download "u" envAtLimit).1 = true ∧
    tookSplit (handle_download "u" envOverLimit).1 = true := by
  constructor
  · exact (C3_threshold "u" envAtLimit "f" (List.replicate TG_SIZE_LIMIT 0)
      rfl rfl).1.mpr (by rw [List.length_replicate])
  · exact (C3_threshold "u" envOverLimit "f"
      (List.replicate (TG_SIZE_LIMIT + 1) 0) rfl rfl).2.mpr
      (by rw [List.length_replicate]; omega)

/-! ### Claim C4: parts are uploaded in sequence order -/

/-- C4: on the splitting path the sequence of attempted part uploads is
a prefix of the segmenter's part list, which itself is exactly the
sequence-index-ordered list `partNames`; hence for any two parts `i < j`
of the same request, part `i`'s upload is issued before part `j`'s. -/
theorem C4_upload_order (url : String) (env : Env) (filepath : String)
    (data : Bytes) (h1 : env.dlResult = Except.ok filepath)
    (h2 : env.fs0 filepath = some data)
    (h3 : TG_SIZE_LIMIT < data.length) :
    ∃ fs1 names,
      split_file env.fs0 filepath CHUNK_SIZE = some (fs1, names) ∧
      names = partNames filepath (chunksOf CHUNK_SIZE data).length ∧
      List.IsPrefix (uploadsOf (handle_download url env).1) names := by
  refine ⟨(writeParts filepath env.fs0 1 (chunksOf CHUNK_SIZE data)).1,
    (writeParts filepath env.fs0 1 (chunksOf CHUNK_SIZE data)).2, ?_, ?_, ?_⟩
  · rw [split_file, h2]
  · rw [writeParts_names]
    rfl
  · have hsize : ¬ data.length ≤ TG_SIZE_LIMIT := by omega
    cases hok : (uploadLoop env.sendOk
        (writeParts filepath env.fs0 1 (chunksOf CHUNK_SIZE data)).1 0
        (writeParts filepath env.fs0 1 (chunksOf CHUNK_SIZE data)).2).ok <;>
      simp [handle_download, h1, h2, hsize, split_file, hok, uploadsOf,
        List.filterMap_cons, List.filterMap_append]
    · have := uploadLoop_is_prefix env.sendOk
        (writeParts filepath env.fs0 1 (chunksOf CHUNK_SIZE data)).2
        (writeParts filepath env.fs0 1 (chunksOf CHUNK_SIZE data)).1 0
      simpa [uploadsOf] using this
    · have := uploadLoop_is_prefix env.sendOk
        (writeParts filepath env.fs0 1 (chunksOf CHUNK_SIZE data)).2
        (writeParts filepath env.fs0 1 (chunksOf CHUNK_SIZE data)).1 0
      simpa [uploadsOf] using this

/-- Witness for C4 at the 50 MiB + 1 environment. -/
theorem C4_upload_order_witness :
    ∃ fs1 names,
      split_file envOverLimit.fs0 "f" CHUNK_SIZE = some (fs1, names) ∧
      names = partNames "f"
        (chunksOf CHUNK_SIZE (List.replicate (TG_SIZE_LIMIT + 1) 0)).length ∧
      List.IsPrefix (uploadsOf (handle_download "u" envOverLimit).1) names :=
  C4_upload_order "u" envOverLimit "f" (List.replicate (TG_SIZE_LIMIT + 1) 0)
    rfl rfl (by rw [List.length_replicate]; omega)

/-! ### Claim C5: restriction keywords and the credential hint -/

theorem startsWithList_append (m r : List Char) :
    startsWithList m (m ++ r) = true := by
  induction m with
  | nil => rfl
  | cons a as ih => simp [startsWithList, ih]

theorem listContains_append_of_starts (l1 t m : List Char)
    (h : startsWithList m t = true) : listContains (l1 ++ t) m = true := by
  induction l1 with
  | nil =>
    cases t with
    | nil => simpa [listContains] using h
    | cons x xs => simp [listContains, h]
  | cons a as ih => simp [listContains, ih]

theorem listContains_middle (l1 m l2 : List Char) :
    listContains (l1 ++ (m ++ l2)) m = true :=
  listContains_append_of_starts l1 (m ++ l2) m (startsWithList_append m l2)

/-- C5: when the download fails, the trace is exactly the
acknowledgement followed by the failure edit; if the cause text matches
one of the restriction keywords (case-insensitively), the rendered
failure message contains both the raw cause text and the credential
hint; otherwise the rendered message is the bare failure text with no
hint appended. -/
theorem C5_restriction_hint (url : String) (env : Env) (cause : String)
    (h : env.dlResult = Except.error cause) :
    (handle_download url env).1 =
      [Ev.ack (Msg.mQueued url), Ev.edit (Msg.mDownloadFailed cause)] ∧
    (restricted cause = true →
      listContains (renderMsg (Msg.mDownloadFailed cause)).data cause.data
        = true ∧
      listContains (renderMsg (Msg.mDownloadFailed cause)).data
        credentialHint.data = true) ∧
    (restricted cause = false →
      renderMsg (Msg.mDownloadFailed cause) =
        "❌ Download failed: " ++ cause) := by
  refine ⟨by simp [handle_download, h], ?_, ?_⟩
  · intro hr
    constructor
    · rw [renderMsg, if_pos hr, string_data_append, string_data_append,
        List.append_assoc]
      exact listContains_middle _ _ _
    · rw [renderMsg, if_pos hr, string_data_append, string_data_append]
      have := listContains_middle
        ("❌ Download failed: ".data ++ cause.data) credentialHint.data []
      simpa [List.append_assoc] using this
  · intro hr
    rw [renderMsg, if_neg (by simp [hr])]
    apply String.ext
    simp [string_data_append]

/-- Environment in which the download fails with a cause containing
the keyword `login`. -/
def envLoginFail : Env where
  dlResult := Except.error "ERROR: Login required to access this video"
  fs0 := fun _ => none
  sendOk := fun _ => true
  sendErr := "sendErr"
  statErr := "statErr"

/-- Environment in which the download fails with a generic cause. -/
def envPlainFail : Env where
  dlResult := Except.error "network timeout"
  fs0 := fun _ => none
  sendOk := fun _ => true
  sendErr := "sendErr"
  statErr := "statErr"

/-- Witness for C5: a `login` cause gets the hint (and carries the raw
cause), a plain network error does not. -/
theorem C5_restriction_hint_witness :
    (listContains
      (renderMsg (Msg.mDownloadFailed
        "ERROR: Login required to access this video")).data
      "ERROR: Login required to access this video".data = true ∧
    listContains
      (renderMsg (Msg.mDownloadFailed
        "ERROR: Login required to access this video")).data
      credentialHint.data = true) ∧
    renderMsg (Msg.mDownloadFailed "network timeout") =
      "❌ Download failed: " ++ "network timeout" := by
  constructor
  · exact (C5_restriction_hint "u" envLoginFail
      "ERROR: Login required to access this video" rfl).2.1 (by decide)
  · exact (C5_restriction_hint "u" envPlainFail "network timeout" rfl).2.2
      (by decide)

/-! ### Claim C2: cleanup after terminal states -/

theorem chunksOfGo_stable (c : Nat) :
    ∀ f1 f2 data, data.length ≤ f1 → data.length ≤ f2 →
      chunksOfGo c f1 data = chunksOfGo c f2 data := by
  intro f1
  induction f1 with
  | zero =>
    intro f2 data h1 _
    have : data = [] := List.length_eq_zero.mp (Nat.le_zero.mp h1)
    subst this
    rw [chunksOfGo_nil, chunksOfGo_nil]
  | succ n ih =>
    intro f2 data h1 h2
    cases f2 with
    | zero =>
      have : data = [] := List.length_eq_zero.mp (Nat.le_zero.mp h2)
      subst this
      rw [chunksOfGo_nil, chunksOfGo_nil]
    | succ m =>
      simp only [chunksOfGo]
      by_cases htk : data.take c = []
      · simp [htk]
      · have hc : 0 < c := by
          rcases Nat.eq_zero_or_pos c with h | h
          · exact absurd (by simp [h]) htk
          · exact h
        have hd : data ≠ [] := by
          intro h
          exact htk (by simp [h])
        have hpos : 0 < data.length := List.length_pos.mpr hd
        have hl1 : (data.drop c).length ≤ n := by
          simp only [List.length_drop]; omega
        have hl2 : (data.drop c).length ≤ m := by
          simp only [List.length_drop]; omega
        simp [htk, ih _ _ hl1 hl2]

theorem chunksOf_step (c : Nat) (hc : 0 < c) (data : Bytes)
    (hd : data ≠ []) :
    chunksOf c data = data.take c :: chunksOf c (data.drop c) := by
  cases data with
  | nil => exact absurd rfl hd
  | cons x xs =>
    have htk : (x :: xs).take c ≠ [] := by
      intro h
      rcases List.take_eq_nil_iff.mp h with h | h
      · omega
      · simp at h
    show chunksOfGo c (xs.length + 1) (x :: xs) = _
    simp only [chunksOfGo, if_neg htk]
    congr 1
    exact chunksOfGo_stable c xs.length ((x :: xs).drop c).length _
      (by simp only [List.length_drop]; simp; omega) le_rfl

theorem chunksOf_two (c n : Nat) (a : Nat) (hc : 0 < c) (h1 : c < n)
    (h2 : n ≤ 2 * c) :
    chunksOf c (List.replicate n a) =
      [List.replicate c a, List.replicate (n - c) a] := by
  have hne1 : List.replicate n a ≠ [] := by
    intro h
    have := congrArg List.length h
    simp at this
    omega
  rw [chunksOf_step c hc _ hne1, List.take_replicate, List.drop_replicate,
    Nat.min_eq_left (by omega)]
  have hne2 : List.replicate (n - c) a ≠ [] := by
    intro h
    have := congrArg List.length h
    simp at this
    omega
  rw [chunksOf_step c hc _ hne2, List.take_replicate, List.drop_replicate,
    Nat.min_eq_right (by omega)]
  have h0 : n - c - c = 0 := by omega
  rw [h0]
  rfl

/-- C2 (amended): artifacts are fully removed on the direct-send path —
after both its success and its failure terminal states the downloaded
file is gone — and on the split path whenever every part upload
succeeds, in which case the source file and every part are gone.  (The
original claim fails on the split path's failure terminal state: see
the counterexample, where the source file and a not-yet-uploaded part
survive.) -/
theorem C2_cleanup_amended (url : String) (env : Env) (filepath : String)
    (data : Bytes) (h1 : env.dlResult = Except.ok filepath)
    (h2 : env.fs0 filepath = some data) :
    (data.length ≤ TG_SIZE_LIMIT →
      (handle_download url env).2 filepath = none) ∧
    (∀ fs1 names, TG_SIZE_LIMIT < data.length →
      split_file env.fs0 filepath CHUNK_SIZE = some (fs1, names) →
      (∀ k, k < names.length → env.sendOk k = true) →
      (handle_download url env).2 filepath = none ∧
      ∀ q ∈ names, (handle_download url env).2 q = none) := by
  constructor
  · intro hsize
    by_cases hsend : env.sendOk 0 <;>
      simp [handle_download, h1, h2, hsize, hsend, fsRemove]
  · intro fs1 names hsize hsplit hall
    have hsplit2 : split_file env.fs0 filepath CHUNK_SIZE =
        some ((writeParts filepath env.fs0 1 (chunksOf CHUNK_SIZE data)).1,
          (writeParts filepath env.fs0 1 (chunksOf CHUNK_SIZE data)).2) := by
      rw [split_file, h2]
    have hfs1 : fs1 =
        (writeParts filepath env.fs0 1 (chunksOf CHUNK_SIZE data)).1 := by
      have := hsplit2.symm.trans hsplit
      exact (Prod.mk.injEq _ _ _ _ ▸ Option.some.injEq _ _ ▸ this).1.symm
    have hnames : names =
        (writeParts filepath env.fs0 1 (chunksOf CHUNK_SIZE data)).2 := by
      have := hsplit2.symm.trans hsplit
      exact (Prod.mk.injEq _ _ _ _ ▸ Option.some.injEq _ _ ▸ this).2.symm
    subst hfs1
    subst hnames
    have hloop := uploadLoop_all_ok env.sendOk
      (writeParts filepath env.fs0 1 (chunksOf CHUNK_SIZE data)).2
      (writeParts filepath env.fs0 1 (chunksOf CHUNK_SIZE data)).1 0
      (by intro i hi; simpa using hall i hi)
    have hns : ¬ data.length ≤ TG_SIZE_LIMIT := by omega
    constructor
    · simp [handle_download, h1, h2, hns, split_file, hloop.1, fsRemove]
    · intro q hq
      have hnone := hloop.2 q hq
      simp only [handle_download, h1, h2, hns, split_file]
      simp only [if_neg hns, hloop.1, if_pos rfl]
      simp [fsRemove, hnone]

/-- Environment for the C2 witness: a one-byte file, uploads succeed. -/
def envTiny : Env where
  dlResult := Except.ok "g"
  fs0 := constFS "g" [7]
  sendOk := fun _ => true
  sendErr := "sendErr"
  statErr := "statErr"

/-- Witness for C2 (amended) on the direct-send path. -/
theorem C2_cleanup_amended_witness :
    (handle_download "u" envTiny).2 "g" = none :=
  (C2_cleanup_amended "u" envTiny "g" [7] rfl rfl).1 (by decide)

/-- The downloaded file of the C2 counterexample: one byte over the
transport limit, so it splits into a 48 MiB part and a 2 MiB + 1 part. -/
def dataC2 : Bytes := List.replicate (TG_SIZE_LIMIT + 1) 0

/-- The defining equation of `dataC2`, recorded before `dataC2` is made
irreducible (which keeps the elaborator from trying to evaluate a
50-MiB list element by element). -/
theorem dataC2_eq : dataC2 = List.replicate (TG_SIZE_LIMIT + 1) 0 := rfl

attribute [irreducible] dataC2

/-- Environment of the C2 counterexample: the download succeeds, the
first part upload succeeds, the second fails. -/
def envC2 : Env where
  dlResult := Except.ok "f.mp4"
  fs0 := constFS "f.mp4" dataC2
  sendOk := fun k => decide (k = 0)
  sendErr := "part upload failed"
  statErr := "statErr"

/-- Counterexample to C2 as stated: this request passes the size check,
reaches the `Failed` terminal state (the `mSplitFailed` edit is in the
trace), yet the downloaded file is still on disk, and so is the second
part.  The source's `except` block around the part loop performs no
cleanup. -/
theorem C2_cleanup_counterexample :
    Ev.edit (Msg.mSplitFailed "part upload failed") ∈
      (handle_download "u" envC2).1 ∧
    (handle_download "u" envC2).2 "f.mp4" = some dataC2 ∧
    (handle_download "u" envC2).2 (partName "f.mp4" 2) =
      some (List.replicate 2097153 0) := by
  have harith : TG_SIZE_LIMIT + 1 - CHUNK_SIZE = 2097153 := by decide
  have hchunks : chunksOf CHUNK_SIZE dataC2 =
      [List.replicate CHUNK_SIZE 0, List.replicate 2097153 0] := by
    rw [dataC2_eq, chunksOf_two CHUNK_SIZE (TG_SIZE_LIMIT + 1) 0 (by decide)
      (by decide) (by decide), harith]
  have hdl : envC2.dlResult = Except.ok "f.mp4" := rfl
  have hfs0 : envC2.fs0 "f.mp4" = some dataC2 := rfl
  have hLen : dataC2.length = TG_SIZE_LIMIT + 1 := by
    rw [dataC2_eq, List.length_replicate]
  have hW : writeParts "f.mp4" envC2.fs0 1
      [List.replicate CHUNK_SIZE 0, List.replicate 2097153 0] =
      (fsWrite (fsWrite envC2.fs0 (partName "f.mp4" 1)
          (List.replicate CHUNK_SIZE 0)) (partName "f.mp4" 2)
          (List.replicate 2097153 0),
        [partName "f.mp4" 1, partName "f.mp4" 2]) := by
    generalize List.replicate CHUNK_SIZE (0 : Nat) = b1
    generalize List.replicate 2097153 (0 : Nat) = b2
    norm_num [writeParts]
  have hloop : uploadLoop envC2.sendOk
      (fsWrite (fsWrite envC2.fs0 (partName "f.mp4" 1)
        (List.replicate CHUNK_SIZE 0)) (partName "f.mp4" 2)
        (List.replicate 2097153 0)) 0
      [partName "f.mp4" 1, partName "f.mp4" 2] =
      ⟨[Ev.upload (partName "f.mp4" 1), Ev.upload (partName "f.mp4" 2)],
        fsRemove (fsWrite (fsWrite envC2.fs0 (partName "f.mp4" 1)
          (List.replicate CHUNK_SIZE 0)) (partName "f.mp4" 2)
          (List.replicate 2097153 0)) (partName "f.mp4" 1),
        false⟩ := by
    have h0 : envC2.sendOk 0 = true := rfl
    have h1 : envC2.sendOk 1 = false := rfl
    generalize List.replicate CHUNK_SIZE (0 : Nat) = b1
    generalize List.replicate 2097153 (0 : Nat) = b2
    simp [uploadLoop, h0, h1]
  have hse : envC2.sendErr = "part upload failed" := rfl
  have hmain : handle_download "u" envC2 =
      ([Ev.ack (Msg.mQueued "u"),
        Ev.edit (Msg.mSplitting (dataC2.length / 1024 / 1024)),
        Ev.upload (partName "f.mp4" 1), Ev.upload (partName "f.mp4" 2),
        Ev.edit (Msg.mSplitFailed "part upload failed")],
       fsRemove (fsWrite (fsWrite envC2.fs0 (partName "f.mp4" 1)
          (List.replicate CHUNK_SIZE 0)) (partName "f.mp4" 2)
          (List.replicate 2097153 0)) (partName "f.mp4" 1)) := by
    simp only [handle_download, hdl, hfs0, hLen, split_file, hchunks, hW,
      hloop, hse, if_neg (by omega : ¬ (TG_SIZE_LIMIT + 1 ≤ TG_SIZE_LIMIT))]
    rw [if_neg Bool.false_ne_true]
    simp only [List.cons_append, List.nil_append]
  have hne1 : ("f.mp4" : String) ≠ partName "f.mp4" 1 :=
    fun h => partName_ne_self "f.mp4" 1 h.symm
  have hne2 : ("f.mp4" : String) ≠ partName "f.mp4" 2 :=
    fun h => partName_ne_self "f.mp4" 2 h.symm
  have hne12 : partName "f.mp4" 2 ≠ partName "f.mp4" 1 := by
    intro h
    have := partName_inj "f.mp4" 2 1 h
    omega
  refine ⟨?_, ?_, ?_⟩
  · rw [hmain]
    exact List.mem_cons_of_mem _ (List.mem_cons_of_mem _
      (List.mem_cons_of_mem _ (List.mem_cons_of_mem _
        (List.mem_singleton.mpr rfl))))
  · rw [hmain]
    simp only [fsRemove, fsWrite]
    rw [if_neg hne1, if_neg hne2, if_neg hne1]
    exact hfs0
  · rw [hmain]
    simp only [fsRemove, fsWrite]
    rw [if_neg hne12]
    exact if_pos trivial

/-! ### Claim C6: deterministic names and lexicographic order -/

theorem lexLt_append_same (p a b : List Char) :
    lexLt (p ++ a) (p ++ b) = lexLt a b := by
  induction p with
  | nil => rfl
  | cons c cs ih => simp [lexLt, ih]

set_option maxRecDepth 16384 in
/-- Adjacent three-digit-padded indices compare lexicographically in
numeric order as long as both stay at or below 999. -/
theorem pad3_adj :
    ∀ j, j < 998 →
      lexLt ((pad3digits (j + 1)).map Nat.digitChar)
        ((pad3digits (j + 2)).map Nat.digitChar) = true := by decide

theorem partName_lexLt_adj (path : String) (i : Nat) (h1 : 1 ≤ i)
    (h2 : i ≤ 998) :
    lexLt (partName path i).data (partName path (i + 1)).data = true := by
  rw [partName_data, partName_data, lexLt_append_same, lexLt_append_same]
  have h := pad3_adj (i - 1) (by omega)
  have e1 : i - 1 + 1 = i := by omega
  have e2 : i - 1 + 2 = i + 1 := by omega
  rwa [e1, e2] at h

theorem chain'_map_range' (f : Nat → String) (R : String → String → Prop) :
    ∀ n s, (∀ i, s ≤ i → i + 1 < s + n → R (f i) (f (i + 1))) →
      List.Chain' R ((List.range' s n).map f) := by
  intro n
  induction n with
  | zero => intro s _; simp
  | succ m ih =>
    intro s h
    rw [List.range'_succ, List.map_cons]
    cases m with
    | zero => simp
    | succ m2 =>
      rw [List.range'_succ, List.map_cons]
      refine List.chain'_cons.mpr ⟨h s le_rfl (by omega), ?_⟩
      rw [← List.map_cons, ← List.range'_succ]
      exact ih (s + 1) (fun i hi1 hi2 => h i (by omega) (by omega))

/-- C6 (amended): `split_file` names its parts exactly
`path ++ ".part" ++ idx`, where `idx` is the 1-based sequence index
zero-padded to a minimum of three digits, and whenever the number of
parts stays within three digits (at most 999), listing the names in
lexicographic order preserves the sequence order.  (The original
unrestricted ordering claim fails from 1000 parts on: see the
counterexample.) -/
theorem C6_part_naming (fs : FS) (path : String) (data : Bytes) (c : Nat)
    (hf : fs path = some data) :
    ∃ fs1 names, split_file fs path c = some (fs1, names) ∧
      names = partNames path (chunksOf c data).length ∧
      (names.length ≤ 999 →
        List.Chain' (fun a b => lexLt a.data b.data = true) names) := by
  refine ⟨(writeParts path fs 1 (chunksOf c data)).1,
    (writeParts path fs 1 (chunksOf c data)).2, ?_, ?_, ?_⟩
  · rw [split_file, hf]
  · rw [writeParts_names]
    rfl
  · intro hlen
    rw [writeParts_names] at hlen ⊢
    rw [List.length_map, List.length_range'] at hlen
    apply chain'_map_range'
    intro i hi1 hi2
    exact partName_lexLt_adj path i hi1 (by omega)

/-- Witness for C6 (amended) at a concrete three-byte file. -/
theorem C6_part_naming_witness :
    ∃ fs1 names,
      split_file (constFS "s" [1, 2, 3]) "s" 2 = some (fs1, names) ∧
      names = partNames "s" (chunksOf 2 [1, 2, 3]).length ∧
      (names.length ≤ 999 →
        List.Chain' (fun a b => lexLt a.data b.data = true) names) :=
  C6_part_naming (constFS "s" [1, 2, 3]) "s" [1, 2, 3] 2 rfl

theorem split_file_eq (fs : FS) (path : String) (c : Nat) (data : Bytes)
    (hf : fs path = some data) :
    split_file fs path c = some (writeParts path fs 1 (chunksOf c data)) := by
  rw [split_file, hf]

/-- A 1000-byte file, split with chunk size 1 into 1000 parts. -/
def fsThousand : FS := constFS "f" (List.replicate 1000 0)

/-- Counterexample to C6 as stated: with 1000 parts the suffix of part
1000 grows to four digits, and `"f.part1000"` sorts lexicographically
before `"f.part999"`, so the lexicographic listing no longer preserves
sequence order. -/
theorem C6_part_naming_counterexample :
    ∃ fs1 names, split_file fsThousand "f" 1 = some (fs1, names) ∧
      names.length = 1000 ∧
      ¬ List.Chain' (fun a b => lexLt a.data b.data = true) names := by
  have hchunks : chunksOf 1 (List.replicate 1000 (0 : Nat)) =
      (List.replicate 1000 (0 : Nat)).map (fun x => [x]) :=
    chunksOf_one _
  refine ⟨(writeParts "f" fsThousand 1
      (chunksOf 1 (List.replicate 1000 0))).1,
    (writeParts "f" fsThousand 1 (chunksOf 1 (List.replicate 1000 0))).2,
    ?_, ?_, ?_⟩
  · rw [split_file_eq fsThousand "f" 1 (List.replicate 1000 0) rfl,
      Prod.mk.eta]
  · rw [writeParts_names, List.length_map, List.length_range', hchunks,
      List.length_map, List.length_replicate]
  · rw [writeParts_names, hchunks]
    have hlen : ((List.replicate 1000 (0 : Nat)).map
        (fun x => ([x] : Bytes))).length = 1000 := by
      rw [List.length_map, List.length_replicate]
    rw [hlen]
    have hdecomp : (List.range' 1 1000).map (partName "f") =
        (List.range' 1 998).map (partName "f") ++
          [partName "f" 999, partName "f" 1000] := by
      rw [← List.range'_append 1 998 2 1, List.map_append]
      rfl
    rw [hdecomp]
    intro hchain
    have h2 := (List.chain'_append.mp hchain).2.1
    have hR := List.chain'_pair.mp h2
    have hF : lexLt (partName "f" 999).data (partName "f" 1000).data
        = false := by decide
    rw [hF] at hR
    exact Bool.false_ne_true hR
